import Mathlib

/-!
Verification development for the optuslib time-series aggregation engine
(`optuslib/func/calc.py`).  Python dictionaries are embedded as association
lists over integer keys (insertion order preserved, keys unique by
construction), Python integers as `Int`, and the Python `range` with a
positive step as an explicit fuel-driven enumeration.
-/

set_option autoImplicit false

namespace Optus

/-- Association-list embedding of a Python `dict` with `int` keys.
Insertion order is preserved; `set` overwrites the first matching key or
appends a fresh binding at the end, exactly like `d[k] = v`. -/
abbrev Dict (α : Type) : Type := List (Int × α)

namespace Dict

/-- `d.get(k)` returning `None` when absent. -/
def get {α : Type} : Dict α → Int → Option α
  | [], _ => none
  | (k, v) :: rest, key => if k = key then some v else get rest key

/-- `d.get(k, dflt)`. -/
def getD {α : Type} (d : Dict α) (key : Int) (dflt : α) : α :=
  (d.get key).getD dflt

/-- `d[k] = v`: overwrite the first binding for `k`, else append. -/
def set {α : Type} : Dict α → Int → α → Dict α
  | [], key, v => [(key, v)]
  | (k, w) :: rest, key, v =>
    if k = key then (key, v) :: rest else (k, w) :: set rest key v

/-- `d.keys()`. -/
def keys {α : Type} (d : Dict α) : List Int := d.map Prod.fst

end Dict

/-- Modelled from the spec: the optional `operation_type` tag carried by an
operation (only its `name` field is read by the classifier). -/
structure OperationType where
  name : String
deriving DecidableEq, Repr

/-- Modelled from the spec: the pool reference on an operation; only its
integer `id` is used. -/
structure Pool where
  id : Int
deriving DecidableEq, Repr

/-- Modelled from the spec: an `Operation` record (fields from spec §6:
Unix timestamp in seconds, optional pool reference, signed token amounts,
optional `operation_type` tag). -/
structure Operation where
  pool : Option Pool
  timestamp : Int
  token_0_amount : Int
  token_1_amount : Int
  operation_type : Option OperationType
deriving DecidableEq, Repr

/-- Modelled from the spec: `PairSequence` (schema class not under `src/`),
a pair of bucket-keyed accumulator dicts `token_0`, `token_1`, both empty
when default-constructed. -/
structure PairSequence where
  token_0 : Dict Int
  token_1 : Dict Int
deriving DecidableEq, Repr

/-- `PairSequence()`: the default-constructed pair of empty dicts. -/
def PairSequence.empty : PairSequence := ⟨[], []⟩

/-- Modelled from the spec (§4.1): `timestamp_point` from `func/time.py`
(not under `src/`): the timestamp truncated to the start of its bucket,
`timestamp - (timestamp mod time_interval)`.  the Lean `%` on `Int` is
Euclidean mod, which agrees with Python `%` for a positive modulus. -/
def timestamp_point (timestamp time_interval : Int) : Int :=
  timestamp - timestamp % time_interval

/-- `operation_is_swap` from `calc.py`. -/
def operation_is_swap (operation : Operation) : Bool :=
  match operation.operation_type with
  | some t => t.name = "swap"
  | none =>
    (operation.token_0_amount > 0 && operation.token_1_amount < 0)
      || (operation.token_0_amount < 0 && operation.token_1_amount > 0)

/-- `operation_is_add` from `calc.py`. -/
def operation_is_add (operation : Operation) : Bool :=
  match operation.operation_type with
  | some t => t.name = "add"
  | none => operation.token_0_amount ≥ 0 && operation.token_1_amount ≥ 0

/-- `operation_is_remove` from `calc.py`. -/
def operation_is_remove (operation : Operation) : Bool :=
  match operation.operation_type with
  | some t => t.name = "remove"
  | none => operation.token_0_amount ≤ 0 && operation.token_1_amount ≤ 0

/-- Minimum of a list of integers with a default for the empty list,
as the Python `min(xs, default=d)`. -/
def listMin (l : List Int) (dflt : Int) : Int :=
  match l with
  | [] => dflt
  | x :: xs => xs.foldl min x

/-- `get_start_time` from `calc.py`, at the `PairSequence` branch:
`min(seq.token_0.keys(), default=default)`. -/
def get_start_time_pair (seq : PairSequence) (dflt : Int) : Int :=
  listMin seq.token_0.keys dflt

/-- `get_start_time` from `calc.py`, at the `dict` branch:
`min(seq.keys(), default=default)`. -/
def get_start_time_dict (seq : Dict Int) (dflt : Int) : Int :=
  listMin seq.keys dflt

/-- Fuel-driven enumeration of Python `range(start, stop, step)` for a
positive `step`: emits `start` while `start < stop`, advancing by `step`.
The fuel `(stop - start).toNat` is enough since `step ≥ 1`. -/
def pyRangeAux (stop step : Int) : Int → Nat → List Int
  | _, 0 => []
  | start, fuel + 1 =>
    if start < stop then start :: pyRangeAux stop step (start + step) fuel
    else []

/-- Python `range(start, stop, step)` for a positive `step`. -/
def pyRange (start stop step : Int) : List Int :=
  pyRangeAux stop step start (stop - start).toNat

/-- The body of the liquidity aggregation loop in
`calc_liquidity_change_map`: process one operation into the change map. -/
def liquidityChangeStep (time_interval : Int) (change_map : Dict PairSequence)
    (operation : Operation) : Dict PairSequence :=
  match operation.pool with
  | none => change_map
  | some pool =>
    if operation_is_add operation || operation_is_remove operation then
      let time_key := timestamp_point operation.timestamp time_interval
      let ps := (change_map.get pool.id).getD PairSequence.empty
      change_map.set pool.id
        { token_0 := ps.token_0.set time_key
            (ps.token_0.getD time_key 0 + operation.token_0_amount)
          token_1 := ps.token_1.set time_key
            (ps.token_1.getD time_key 0 + operation.token_1_amount) }
    else change_map

/-- `calc_liquidity_change_map` from `calc.py`. -/
def calc_liquidity_change_map (operations : List Operation)
    (time_interval : Int) : Dict PairSequence :=
  operations.foldl (liquidityChangeStep time_interval) []

/-- One iteration of the liquidity reconstruction loop in
`calc_liquidity_sequence_map`: extend the sequence at `time_key` with the
carried-forward total plus the change of the bucket. -/
def liquiditySeqStep (change_seq : PairSequence) (time_interval : Int)
    (seq : PairSequence) (time_key : Int) : PairSequence :=
  { token_0 := seq.token_0.set time_key
      (seq.token_0.getD (time_key - time_interval) 0
        + change_seq.token_0.getD time_key 0)
    token_1 := seq.token_1.set time_key
      (seq.token_1.getD (time_key - time_interval) 0
        + change_seq.token_1.getD time_key 0) }

/-- The per-pool inner loop of `calc_liquidity_sequence_map`. -/
def buildLiquiditySeq (change_seq : PairSequence)
    (time_interval now_timestamp : Int) : PairSequence :=
  let start_time := get_start_time_pair change_seq now_timestamp
  (pyRange start_time now_timestamp time_interval).foldl
    (liquiditySeqStep change_seq time_interval) PairSequence.empty

/-- `calc_liquidity_sequence_map` from `calc.py`. -/
def calc_liquidity_sequence_map (operations : List Operation)
    (time_interval now_timestamp : Int) : Dict PairSequence :=
  let change_map := calc_liquidity_change_map operations time_interval
  change_map.foldl
    (fun m kv => m.set kv.1 (buildLiquiditySeq kv.2 time_interval now_timestamp))
    []

/-- The body of the volume aggregation loop in `calc_volume_change_map`. -/
def volumeChangeStep (time_interval : Int) (change_map : Dict PairSequence)
    (operation : Operation) : Dict PairSequence :=
  match operation.pool with
  | none => change_map
  | some pool =>
    if operation_is_swap operation then
      let time_key := timestamp_point operation.timestamp time_interval
      let ps := (change_map.get pool.id).getD PairSequence.empty
      change_map.set pool.id
        { token_0 := ps.token_0.set time_key
            (ps.token_0.getD time_key 0 + |operation.token_0_amount|)
          token_1 := ps.token_1.set time_key
            (ps.token_1.getD time_key 0 + |operation.token_1_amount|) }
    else change_map

/-- `calc_volume_change_map` from `calc.py`. -/
def calc_volume_change_map (operations : List Operation)
    (time_interval : Int) : Dict PairSequence :=
  operations.foldl (volumeChangeStep time_interval) []

/-- One iteration of the volume dense-fill loop in
`calc_volume_sequence_map`: copy the change of the bucket (default 0). -/
def volumeSeqStep (change_seq : PairSequence) (seq : PairSequence)
    (time_key : Int) : PairSequence :=
  { token_0 := seq.token_0.set time_key (change_seq.token_0.getD time_key 0)
    token_1 := seq.token_1.set time_key (change_seq.token_1.getD time_key 0) }

/-- The per-pool inner loop of `calc_volume_sequence_map`. -/
def buildVolumeSeq (change_seq : PairSequence)
    (time_interval now_timestamp : Int) : PairSequence :=
  let start_time := get_start_time_pair change_seq now_timestamp
  (pyRange start_time now_timestamp time_interval).foldl
    (volumeSeqStep change_seq) PairSequence.empty

/-- `calc_volume_sequence_map` from `calc.py`. -/
def calc_volume_sequence_map (operations : List Operation)
    (time_interval now_timestamp : Int) : Dict PairSequence :=
  let change_map := calc_volume_change_map operations time_interval
  change_map.foldl
    (fun m kv => m.set kv.1 (buildVolumeSeq kv.2 time_interval now_timestamp))
    []

/-- The body of the swap-count aggregation loop in `calc_swaps_change_map`:
every operation with a pool gets (at least) an empty pool entry; only swap
operations bump a bucket counter. -/
def swapsChangeStep (time_interval : Int) (change_map : Dict (Dict Int))
    (operation : Operation) : Dict (Dict Int) :=
  match operation.pool with
  | none => change_map
  | some pool =>
    let change_map :=
      if (change_map.get pool.id).isSome then change_map
      else change_map.set pool.id []
    if operation_is_swap operation then
      let time_key := timestamp_point operation.timestamp time_interval
      let inner := (change_map.get pool.id).getD []
      change_map.set pool.id (inner.set time_key (inner.getD time_key 0 + 1))
    else change_map

/-- `calc_swaps_change_map` from `calc.py`. -/
def calc_swaps_change_map (operations : List Operation)
    (time_interval : Int) : Dict (Dict Int) :=
  operations.foldl (swapsChangeStep time_interval) []

/-- One iteration of the swap-count dense-fill loop in
`calc_swaps_sequence_map`. -/
def swapsSeqStep (change_seq : Dict Int) (seq : Dict Int)
    (time_key : Int) : Dict Int :=
  seq.set time_key (change_seq.getD time_key 0)

/-- The per-pool inner loop of `calc_swaps_sequence_map`. -/
def buildSwapsSeq (change_seq : Dict Int)
    (time_interval now_timestamp : Int) : Dict Int :=
  let start_time := get_start_time_dict change_seq now_timestamp
  (pyRange start_time now_timestamp time_interval).foldl
    (swapsSeqStep change_seq) []

/-- `calc_swaps_sequence_map` from `calc.py`. -/
def calc_swaps_sequence_map (operations : List Operation)
    (time_interval now_timestamp : Int) : Dict (Dict Int) :=
  let change_seq_map := calc_swaps_change_map operations time_interval
  change_seq_map.foldl
    (fun m kv => m.set kv.1 (buildSwapsSeq kv.2 time_interval now_timestamp))
    []

/-- Modelled from the spec: `ChartPoint` (schema class not under `src/`),
an immutable (date label, numeric value) pair; numeric chart values are
embedded as rationals. -/
structure ChartPoint where
  time : String
  value : ℚ
deriving DecidableEq, Repr

/-- Civil date (year, month, day) of a day count relative to the Unix
epoch 1970-01-01, by the standard proleptic-Gregorian conversion; models
the calendar part of the Python `datetime.fromtimestamp(ts, timezone.utc)`.
All divisors are positive, so `/` is floor division. -/
def civil_from_days (days : Int) : Int × Int × Int :=
  let z := days + 719468
  let era := z / 146097
  let doe := z - era * 146097
  let yoe := (doe - doe / 1460 + doe / 36524 - doe / 146096) / 365
  let y := yoe + era * 400
  let doy := doe - (365 * yoe + yoe / 4 - yoe / 100)
  let mp := (5 * doy + 2) / 153
  let d := doy - (153 * mp + 2) / 5 + 1
  let m := mp + (if mp < 10 then 3 else -9)
  (if m ≤ 2 then y + 1 else y, m, d)

/-- A string of `n` zero digits, for zero padding. -/
def zeros : Nat → String
  | 0 => ""
  | n + 1 => "0" ++ zeros n

/-- Left-pad a string with zero digits up to `width`. -/
def zfill (width : Nat) (s : String) : String :=
  zeros (width - s.length) ++ s

/-- `datetime.fromtimestamp(timestamp, timezone.utc).strftime("%Y-%m-%d")`:
UTC calendar date of a Unix timestamp, formatted `YYYY-MM-DD`. -/
def utc_date_string (timestamp : Int) : String :=
  let date := civil_from_days (timestamp / 86400)
  zfill 4 (toString date.1) ++ "-" ++ zfill 2 (toString date.2.1)
    ++ "-" ++ zfill 2 (toString date.2.2)

/-- Round a rational to the nearest integer, ties to the even integer;
models the Python `round` on the embedded rational value. -/
def roundHalfToEven (q : ℚ) : Int :=
  let f := ⌊q⌋
  let r := q - f
  if r < 1 / 2 then f
  else if 1 / 2 < r then f + 1
  else if f % 2 = 0 then f else f + 1

/-- the Python `round(value, ndigits)` over the rational embedding. -/
def pyRound (value : ℚ) (ndigits : Int) : ℚ :=
  (roundHalfToEven (value * 10 ^ ndigits) : ℚ) / 10 ^ ndigits

/-- Lexicographic order on `(key, value)` items, as the Python `sorted` on
`dict.items()` tuples. -/
def itemLE (a b : Int × ℚ) : Bool :=
  a.1 < b.1 || (a.1 = b.1 && a.2 ≤ b.2)

/-- `calc_chart` from `calc.py`: sort the sequence items, format each key
as a UTC date label, and round the value when `decimals` is given. -/
def calc_chart (seq : Dict ℚ) (decimals : Option Int) : List ChartPoint :=
  (seq.mergeSort itemLE).map fun kv =>
    { time := utc_date_string kv.1
      value :=
        match decimals with
        | none => kv.2
        | some d => pyRound kv.2 d }

/-! ### Dictionary lemmas -/

namespace Dict

variable {α : Type}

theorem get_set_self (d : Dict α) (key : Int) (v : α) :
    Dict.get (Dict.set d key v) key = some v := by
  induction d with
  | nil => simp [Dict.set, Dict.get]
  | cons kv rest ih =>
    obtain ⟨k, w⟩ := kv
    by_cases h : k = key <;> simp [Dict.set, Dict.get, h, ih]

theorem get_set_ne (d : Dict α) (key key' : Int) (v : α) (h : key ≠ key') :
    Dict.get (Dict.set d key v) key' = Dict.get d key' := by
  induction d with
  | nil => simp [Dict.set, Dict.get, h]
  | cons kv rest ih =>
    obtain ⟨k, w⟩ := kv
    by_cases hk : k = key
    · subst hk
      simp [Dict.set, Dict.get, h]
    · simp only [Dict.set, if_neg hk]
      by_cases hk' : k = key' <;> simp [Dict.get, hk', ih]

theorem get_isSome_of_set {d : Dict α} {key key' : Int} {v : α}
    (h : (Dict.get (Dict.set d key v) key').isSome) :
    key = key' ∨ (Dict.get d key').isSome := by
  by_cases hk : key = key'
  · exact Or.inl hk
  · rw [get_set_ne d key key' v hk] at h
    exact Or.inr h

theorem mem_keys_iff_get_isSome (d : Dict α) (key : Int) :
    key ∈ Dict.keys d ↔ (Dict.get d key).isSome := by
  induction d with
  | nil => simp [Dict.keys, Dict.get]
  | cons kv rest ih =>
    obtain ⟨k, w⟩ := kv
    by_cases h : k = key
    · subst h
      simp [Dict.keys, Dict.get]
    · simp only [Dict.keys, Dict.get, h, Ne.symm h, if_neg h] at ih ⊢
      simpa [Ne.symm h] using ih

theorem keys_set (d : Dict α) (key : Int) (v : α) :
    Dict.keys (Dict.set d key v) =
      if key ∈ Dict.keys d then Dict.keys d else Dict.keys d ++ [key] := by
  induction d with
  | nil => simp [Dict.set, Dict.keys]
  | cons kv rest ih =>
    obtain ⟨k, w⟩ := kv
    by_cases h : k = key
    · simp [Dict.set, Dict.keys, h]
    · simp only [Dict.set, if_neg h, Dict.keys, List.map_cons] at ih ⊢
      rw [ih]
      by_cases hmem : key ∈ List.map Prod.fst rest
      · simp [hmem]
      · simp [hmem, Ne.symm h]

theorem nodup_keys_set (d : Dict α) (key : Int) (v : α)
    (h : (Dict.keys d).Nodup) : (Dict.keys (Dict.set d key v)).Nodup := by
  rw [keys_set]
  by_cases hmem : key ∈ Dict.keys d
  · simpa [hmem]
  · rw [if_neg hmem, List.nodup_append]
    exact ⟨h, List.nodup_singleton key,
      fun a ha => by simp; exact fun hk => hmem (hk ▸ ha)⟩

end Dict

/-! ### pyRange lemmas -/

theorem mem_pyRangeAux_bounds {stop step : Int} (hstep : 0 < step) :
    ∀ (fuel : Nat) (start b : Int),
      b ∈ pyRangeAux stop step start fuel → start ≤ b ∧ b < stop := by
  intro fuel
  induction fuel with
  | zero => intro start b hb; simp [pyRangeAux] at hb
  | succ n ih =>
    intro start b hb
    simp only [pyRangeAux] at hb
    by_cases h : start < stop
    · rw [if_pos h] at hb
      rcases List.mem_cons.mp hb with rfl | hb
      · exact ⟨le_refl _, h⟩
      · have := ih (start + step) b hb
        exact ⟨by omega, this.2⟩
    · rw [if_neg h] at hb
      simp at hb

theorem mem_pyRange_bounds {start stop step b : Int} (hstep : 0 < step)
    (hb : b ∈ pyRange start stop step) : start ≤ b ∧ b < stop :=
  mem_pyRangeAux_bounds hstep _ start b hb

theorem pyRange_self (stop step : Int) : pyRange stop stop step = [] := by
  simp [pyRange, pyRangeAux]

/-! ### Characterizing the per-pool folds -/

/-- Folding `set` of transformed values over the entries of a dict with
distinct keys, starting from a dict with disjoint keys, looks up as the
transformed source entry (or falls through to the accumulator). -/
theorem foldl_set_map_get {α β : Type} (F : α → β) :
    ∀ (d : Dict α) (acc : Dict β) (key : Int),
      (Dict.keys d).Nodup →
      (∀ j ∈ Dict.keys d, j ∉ Dict.keys acc) →
      Dict.get (List.foldl (fun m kv => Dict.set m kv.1 (F kv.2)) acc d) key
        = if key ∈ Dict.keys d then (Dict.get d key).map F
          else Dict.get acc key := by
  intro d
  induction d with
  | nil =>
    intro acc key _ _
    show Dict.get acc key = if key ∈ Dict.keys ([] : Dict α) then _ else _
    simp [Dict.keys]
  | cons kv rest ih =>
    obtain ⟨k0, v0⟩ := kv
    intro acc key hnd hdisj
    have hkeys : Dict.keys ((k0, v0) :: rest) = k0 :: Dict.keys rest := rfl
    rw [hkeys] at hnd hdisj
    have hk0rest : k0 ∉ Dict.keys rest := (List.nodup_cons.mp hnd).1
    have hnd' : (Dict.keys rest).Nodup := (List.nodup_cons.mp hnd).2
    have hk0acc : k0 ∉ Dict.keys acc := hdisj k0 (List.mem_cons_self k0 _)
    have hdisj' : ∀ j ∈ Dict.keys rest, j ∉ Dict.keys (Dict.set acc k0 (F v0)) := by
      intro j hj
      rw [Dict.keys_set, if_neg hk0acc]
      intro hmem
      rcases List.mem_append.mp hmem with hja | hjb
      · exact hdisj j (List.mem_cons_of_mem _ hj) hja
      · rw [List.mem_singleton] at hjb
        exact hk0rest (hjb ▸ hj)
    have hfold := ih (Dict.set acc k0 (F v0)) key hnd' hdisj'
    simp only [List.foldl_cons]
    rw [hfold, hkeys]
    by_cases hkey : key ∈ Dict.keys rest
    · have hne : k0 ≠ key := fun h => hk0rest (h ▸ hkey)
      rw [if_pos hkey, if_pos (List.mem_cons_of_mem _ hkey)]
      have hg : Dict.get ((k0, v0) :: rest) key = Dict.get rest key := by
        simp [Dict.get, hne]
      rw [hg]
    · by_cases hk : key = k0
      · subst hk
        rw [if_neg hkey, if_pos (List.mem_cons_self _ _), Dict.get_set_self]
        have hg : Dict.get ((key, v0) :: rest) key = some v0 := by
          simp [Dict.get]
        rw [hg]
        rfl
      · have hnotin : key ∉ k0 :: Dict.keys rest := by
          intro hmem
          rcases List.mem_cons.mp hmem with h | h
          exacts [hk h, hkey h]
        rw [if_neg hkey, Dict.get_set_ne acc k0 key (F v0) (Ne.symm hk),
          if_neg hnotin]

/-- Liquidity aggregation preserves distinctness of pool keys. -/
theorem liquidityChangeStep_keys_nodup (ti : Int) (m : Dict PairSequence)
    (op : Operation) (h : (Dict.keys m).Nodup) :
    (Dict.keys (liquidityChangeStep ti m op)).Nodup := by
  unfold liquidityChangeStep
  cases op.pool with
  | none => exact h
  | some pool =>
    by_cases hq : operation_is_add op || operation_is_remove op <;>
      simp only [hq, if_true, if_false]
    · exact Dict.nodup_keys_set _ _ _ h
    · exact h

/-- Pool keys of `calc_liquidity_change_map` are distinct. -/
theorem calc_liquidity_change_map_keys_nodup (ops : List Operation) (ti : Int) :
    (Dict.keys (calc_liquidity_change_map ops ti)).Nodup := by
  suffices h : ∀ (acc : Dict PairSequence), (Dict.keys acc).Nodup →
      (Dict.keys (List.foldl (liquidityChangeStep ti) acc ops)).Nodup by
    exact h [] (by simp [Dict.keys])
  induction ops with
  | nil => intro acc hacc; exact hacc
  | cons op rest ih =>
    intro acc hacc
    exact ih _ (liquidityChangeStep_keys_nodup ti acc op hacc)

/-- Volume aggregation preserves distinctness of pool keys. -/
theorem volumeChangeStep_keys_nodup (ti : Int) (m : Dict PairSequence)
    (op : Operation) (h : (Dict.keys m).Nodup) :
    (Dict.keys (volumeChangeStep ti m op)).Nodup := by
  unfold volumeChangeStep
  cases op.pool with
  | none => exact h
  | some pool =>
    by_cases hq : operation_is_swap op <;> simp only [hq, if_true, if_false]
    · exact Dict.nodup_keys_set _ _ _ h
    · exact h

/-- Pool keys of `calc_volume_change_map` are distinct. -/
theorem calc_volume_change_map_keys_nodup (ops : List Operation) (ti : Int) :
    (Dict.keys (calc_volume_change_map ops ti)).Nodup := by
  suffices h : ∀ (acc : Dict PairSequence), (Dict.keys acc).Nodup →
      (Dict.keys (List.foldl (volumeChangeStep ti) acc ops)).Nodup by
    exact h [] (by simp [Dict.keys])
  induction ops with
  | nil => intro acc hacc; exact hacc
  | cons op rest ih =>
    intro acc hacc
    exact ih _ (volumeChangeStep_keys_nodup ti acc op hacc)

/-- Swap-count aggregation preserves distinctness of pool keys. -/
theorem swapsChangeStep_keys_nodup (ti : Int) (m : Dict (Dict Int))
    (op : Operation) (h : (Dict.keys m).Nodup) :
    (Dict.keys (swapsChangeStep ti m op)).Nodup := by
  unfold swapsChangeStep
  cases op.pool with
  | none => exact h
  | some pool =>
    have h1 : (Dict.keys (if (Dict.get m pool.id).isSome then m
        else Dict.set m pool.id [])).Nodup := by
      by_cases hs : (Dict.get m pool.id).isSome <;> simp only [hs, if_true, if_false]
      · exact h
      · exact Dict.nodup_keys_set _ _ _ h
    by_cases hq : operation_is_swap op <;> simp only [hq, if_true, if_false]
    · exact Dict.nodup_keys_set _ _ _ h1
    · exact h1

/-- Pool keys of `calc_swaps_change_map` are distinct. -/
theorem calc_swaps_change_map_keys_nodup (ops : List Operation) (ti : Int) :
    (Dict.keys (calc_swaps_change_map ops ti)).Nodup := by
  suffices h : ∀ (acc : Dict (Dict Int)), (Dict.keys acc).Nodup →
      (Dict.keys (List.foldl (swapsChangeStep ti) acc ops)).Nodup by
    exact h [] (by simp [Dict.keys])
  induction ops with
  | nil => intro acc hacc; exact hacc
  | cons op rest ih =>
    intro acc hacc
    exact ih _ (swapsChangeStep_keys_nodup ti acc op hacc)

/-- The liquidity sequence map per-pool lookup is the per-pool
reconstruction of the change map lookup. -/
theorem calc_liquidity_sequence_map_get (ops : List Operation)
    (ti now pool : Int) :
    Dict.get (calc_liquidity_sequence_map ops ti now) pool
      = (Dict.get (calc_liquidity_change_map ops ti) pool).map
          (fun cs => buildLiquiditySeq cs ti now) := by
  have h := foldl_set_map_get (fun cs => buildLiquiditySeq cs ti now)
    (calc_liquidity_change_map ops ti) [] pool
    (calc_liquidity_change_map_keys_nodup ops ti)
    (by intro j _ hj; simp [Dict.keys] at hj)
  by_cases hmem : pool ∈ Dict.keys (calc_liquidity_change_map ops ti)
  · rw [if_pos hmem] at h
    exact h
  · rw [if_neg hmem] at h
    have hnone : Dict.get (calc_liquidity_change_map ops ti) pool = none := by
      rw [Dict.mem_keys_iff_get_isSome] at hmem
      exact Option.not_isSome_iff_eq_none.mp hmem
    rw [hnone]
    simpa using h

/-- The volume sequence map per-pool lookup is the per-pool dense fill of
the change map lookup. -/
theorem calc_volume_sequence_map_get (ops : List Operation)
    (ti now pool : Int) :
    Dict.get (calc_volume_sequence_map ops ti now) pool
      = (Dict.get (calc_volume_change_map ops ti) pool).map
          (fun cs => buildVolumeSeq cs ti now) := by
  have h := foldl_set_map_get (fun cs => buildVolumeSeq cs ti now)
    (calc_volume_change_map ops ti) [] pool
    (calc_volume_change_map_keys_nodup ops ti)
    (by intro j _ hj; simp [Dict.keys] at hj)
  by_cases hmem : pool ∈ Dict.keys (calc_volume_change_map ops ti)
  · rw [if_pos hmem] at h
    exact h
  · rw [if_neg hmem] at h
    have hnone : Dict.get (calc_volume_change_map ops ti) pool = none := by
      rw [Dict.mem_keys_iff_get_isSome] at hmem
      exact Option.not_isSome_iff_eq_none.mp hmem
    rw [hnone]
    simpa using h

/-- The swap-count sequence map per-pool lookup is the per-pool dense fill
of the change map lookup. -/
theorem calc_swaps_sequence_map_get (ops : List Operation)
    (ti now pool : Int) :
    Dict.get (calc_swaps_sequence_map ops ti now) pool
      = (Dict.get (calc_swaps_change_map ops ti) pool).map
          (fun cs => buildSwapsSeq cs ti now) := by
  have h := foldl_set_map_get (fun cs => buildSwapsSeq cs ti now)
    (calc_swaps_change_map ops ti) [] pool
    (calc_swaps_change_map_keys_nodup ops ti)
    (by intro j _ hj; simp [Dict.keys] at hj)
  by_cases hmem : pool ∈ Dict.keys (calc_swaps_change_map ops ti)
  · rw [if_pos hmem] at h
    exact h
  · rw [if_neg hmem] at h
    have hnone : Dict.get (calc_swaps_change_map ops ti) pool = none := by
      rw [Dict.mem_keys_iff_get_isSome] at hmem
      exact Option.not_isSome_iff_eq_none.mp hmem
    rw [hnone]
    simpa using h

/-! ### The inner reconstruction folds, one token dict at a time -/

/-- The single-dict form of one liquidity reconstruction step. -/
def liqStep0 (change : Dict Int) (step : Int) (s : Dict Int) (k : Int) : Dict Int :=
  Dict.set s k (Dict.getD s (k - step) 0 + Dict.getD change k 0)

/-- The single-dict form of one dense-fill step. -/
def denseStep0 (change : Dict Int) (s : Dict Int) (k : Int) : Dict Int :=
  Dict.set s k (Dict.getD change k 0)

theorem foldl_liquiditySeqStep_token_0 (cs : PairSequence) (ti : Int) :
    ∀ (L : List Int) (ps : PairSequence),
      (L.foldl (liquiditySeqStep cs ti) ps).token_0
        = L.foldl (liqStep0 cs.token_0 ti) ps.token_0 := by
  intro L
  induction L with
  | nil => intro ps; rfl
  | cons k L ih =>
    intro ps
    simp only [List.foldl_cons]
    rw [ih]
    rfl

theorem foldl_liquiditySeqStep_token_1 (cs : PairSequence) (ti : Int) :
    ∀ (L : List Int) (ps : PairSequence),
      (L.foldl (liquiditySeqStep cs ti) ps).token_1
        = L.foldl (liqStep0 cs.token_1 ti) ps.token_1 := by
  intro L
  induction L with
  | nil => intro ps; rfl
  | cons k L ih =>
    intro ps
    simp only [List.foldl_cons]
    rw [ih]
    rfl

theorem foldl_volumeSeqStep_token_0 (cs : PairSequence) :
    ∀ (L : List Int) (ps : PairSequence),
      (L.foldl (volumeSeqStep cs) ps).token_0
        = L.foldl (denseStep0 cs.token_0) ps.token_0 := by
  intro L
  induction L with
  | nil => intro ps; rfl
  | cons k L ih =>
    intro ps
    simp only [List.foldl_cons]
    rw [ih]
    rfl

theorem foldl_volumeSeqStep_token_1 (cs : PairSequence) :
    ∀ (L : List Int) (ps : PairSequence),
      (L.foldl (volumeSeqStep cs) ps).token_1
        = L.foldl (denseStep0 cs.token_1) ps.token_1 := by
  intro L
  induction L with
  | nil => intro ps; rfl
  | cons k L ih =>
    intro ps
    simp only [List.foldl_cons]
    rw [ih]
    rfl

theorem foldl_swapsSeqStep_eq (cs : Dict Int) :
    ∀ (L : List Int) (s : Dict Int),
      L.foldl (swapsSeqStep cs) s = L.foldl (denseStep0 cs) s := by
  intro L
  induction L with
  | nil => intro s; rfl
  | cons k L ih =>
    intro s
    simp only [List.foldl_cons]
    rw [ih]
    rfl

/-- Carry-forward reconstruction: over the enumerated buckets, each enumerated bucket
final entry is the final entry one interval earlier (default 0) plus the
change at the bucket; entries below the enumeration start are untouched. -/
theorem liqFold_spec (change : Dict Int) (stop step : Int) (hstep : 0 < step) :
    ∀ (fuel : Nat) (start : Int) (seq : Dict Int),
      (∀ j ∈ Dict.keys seq, j < start) →
      (∀ b ∈ pyRangeAux stop step start fuel,
        Dict.get ((pyRangeAux stop step start fuel).foldl (liqStep0 change step) seq) b
          = some (Dict.getD ((pyRangeAux stop step start fuel).foldl
              (liqStep0 change step) seq) (b - step) 0 + Dict.getD change b 0))
      ∧ (∀ k, k < start →
          Dict.get ((pyRangeAux stop step start fuel).foldl (liqStep0 change step) seq) k
            = Dict.get seq k) := by
  intro fuel
  induction fuel with
  | zero =>
    intro start seq _
    constructor
    · intro b hb
      simp [pyRangeAux] at hb
    · intro k _
      rfl
  | succ n ih =>
    intro start seq hseq
    by_cases h : start < stop
    · have hrange : pyRangeAux stop step start (n + 1)
          = start :: pyRangeAux stop step (start + step) n := by
        simp [pyRangeAux, h]
      set v := Dict.getD seq (start - step) 0 + Dict.getD change start 0 with hv
      have hstep1 : liqStep0 change step seq start = Dict.set seq start v := rfl
      have hinv : ∀ j ∈ Dict.keys (Dict.set seq start v), j < start + step := by
        intro j hj
        rw [Dict.keys_set] at hj
        by_cases hmem : start ∈ Dict.keys seq
        · rw [if_pos hmem] at hj
          have := hseq j hj
          omega
        · rw [if_neg hmem] at hj
          rcases List.mem_append.mp hj with hja | hjb
          · have := hseq j hja
            omega
          · rw [List.mem_singleton] at hjb
            omega
      obtain ⟨ih1, ih2⟩ := ih (start + step) (Dict.set seq start v) hinv
      rw [hrange]
      simp only [List.foldl_cons, hstep1]
      constructor
      · intro b hb
        rcases List.mem_cons.mp hb with rfl | hb
        · have hbfin : Dict.get ((pyRangeAux stop step (b + step) n).foldl
              (liqStep0 change step) (Dict.set seq b v)) b
              = Dict.get (Dict.set seq b v) b := ih2 b (by omega)
          have hprev : Dict.get ((pyRangeAux stop step (b + step) n).foldl
              (liqStep0 change step) (Dict.set seq b v)) (b - step)
              = Dict.get (Dict.set seq b v) (b - step) := ih2 (b - step) (by omega)
          rw [hbfin, Dict.get_set_self]
          unfold Dict.getD
          rw [hprev, Dict.get_set_ne seq b (b - step) v (by omega)]
          rfl
        · exact ih1 b hb
      · intro k hk
        rw [ih2 k (by omega), Dict.get_set_ne seq start k v (by omega)]
    · have hrange : pyRangeAux stop step start (n + 1) = [] := by
        simp [pyRangeAux, h]
      rw [hrange]
      constructor
      · intro b hb
        simp at hb
      · intro k _
        rfl

/-- Dense fill: over the enumerated buckets, each enumerated bucket final entry is
exactly the change at the bucket (default 0); entries below the
enumeration start are untouched. -/
theorem denseFold_spec (change : Dict Int) (stop step : Int) (hstep : 0 < step) :
    ∀ (fuel : Nat) (start : Int) (seq : Dict Int),
      (∀ j ∈ Dict.keys seq, j < start) →
      (∀ b ∈ pyRangeAux stop step start fuel,
        Dict.get ((pyRangeAux stop step start fuel).foldl (denseStep0 change) seq) b
          = some (Dict.getD change b 0))
      ∧ (∀ k, k < start →
          Dict.get ((pyRangeAux stop step start fuel).foldl (denseStep0 change) seq) k
            = Dict.get seq k) := by
  intro fuel
  induction fuel with
  | zero =>
    intro start seq _
    constructor
    · intro b hb
      simp [pyRangeAux] at hb
    · intro k _
      rfl
  | succ n ih =>
    intro start seq hseq
    by_cases h : start < stop
    · have hrange : pyRangeAux stop step start (n + 1)
          = start :: pyRangeAux stop step (start + step) n := by
        simp [pyRangeAux, h]
      set v := Dict.getD change start 0 with hv
      have hstep1 : denseStep0 change seq start = Dict.set seq start v := rfl
      have hinv : ∀ j ∈ Dict.keys (Dict.set seq start v), j < start + step := by
        intro j hj
        rw [Dict.keys_set] at hj
        by_cases hmem : start ∈ Dict.keys seq
        · rw [if_pos hmem] at hj
          have := hseq j hj
          omega
        · rw [if_neg hmem] at hj
          rcases List.mem_append.mp hj with hja | hjb
          · have := hseq j hja
            omega
          · rw [List.mem_singleton] at hjb
            omega
      obtain ⟨ih1, ih2⟩ := ih (start + step) (Dict.set seq start v) hinv
      rw [hrange]
      simp only [List.foldl_cons, hstep1]
      constructor
      · intro b hb
        rcases List.mem_cons.mp hb with rfl | hb
        · rw [ih2 b (by omega), Dict.get_set_self]
        · exact ih1 b hb
      · intro k hk
        rw [ih2 k (by omega), Dict.get_set_ne seq start k v (by omega)]
    · have hrange : pyRangeAux stop step start (n + 1) = [] := by
        simp [pyRangeAux, h]
      rw [hrange]
      constructor
      · intro b hb
        simp at hb
      · intro k _
        rfl

/-- Keys present after a fold of `set`s come from the folded list or from
the initial dict. -/
theorem foldl_set_mem (g : Dict Int → Int → Int) :
    ∀ (L : List Int) (seq : Dict Int) (b : Int),
      (Dict.get (L.foldl (fun s k => Dict.set s k (g s k)) seq) b).isSome →
      b ∈ L ∨ (Dict.get seq b).isSome := by
  intro L
  induction L with
  | nil =>
    intro seq b hb
    exact Or.inr hb
  | cons k L ih =>
    intro seq b hb
    simp only [List.foldl_cons] at hb
    rcases ih _ b hb with hmem | hsome
    · exact Or.inl (List.mem_cons_of_mem _ hmem)
    · rcases Dict.get_isSome_of_set hsome with rfl | h
      · exact Or.inl (List.mem_cons_self _ _)
      · exact Or.inr h

/-! ### Characterizing the aggregation loops operation by operation -/

/-- Token-0 bucket entry of the pair of a pool sequence in a change map
(absent pools read as an empty pair sequence). -/
def pairGet0 (m : Dict PairSequence) (pool bucket : Int) : Option Int :=
  Dict.get ((Dict.get m pool).getD PairSequence.empty).token_0 bucket

/-- Token-1 bucket entry of the pair of a pool sequence in a change map. -/
def pairGet1 (m : Dict PairSequence) (pool bucket : Int) : Option Int :=
  Dict.get ((Dict.get m pool).getD PairSequence.empty).token_1 bucket

/-- Token-0 bucket value with the zero default. -/
def pairLookup0 (m : Dict PairSequence) (pool bucket : Int) : Int :=
  (pairGet0 m pool bucket).getD 0

/-- Token-1 bucket value with the zero default. -/
def pairLookup1 (m : Dict PairSequence) (pool bucket : Int) : Int :=
  (pairGet1 m pool bucket).getD 0

/-- Counter value of a pool and bucket in a swap-count map, default 0. -/
def swapLookup (m : Dict (Dict Int)) (pool bucket : Int) : Int :=
  Dict.getD ((Dict.get m pool).getD []) bucket 0

/-- Common shape of the liquidity and volume aggregation loop bodies:
guard an operation with predicate `q` and accumulate `f0`/`f1` of it into
the bucket entry of the pool. -/
def pairStepGen (q : Operation → Bool) (f0 f1 : Operation → Int) (ti : Int)
    (m : Dict PairSequence) (op : Operation) : Dict PairSequence :=
  match op.pool with
  | none => m
  | some pool =>
    if q op then
      let time_key := timestamp_point op.timestamp ti
      let ps := (Dict.get m pool.id).getD PairSequence.empty
      Dict.set m pool.id
        { token_0 := Dict.set ps.token_0 time_key
            (Dict.getD ps.token_0 time_key 0 + f0 op)
          token_1 := Dict.set ps.token_1 time_key
            (Dict.getD ps.token_1 time_key 0 + f1 op) }
    else m

theorem liquidityChangeStep_eq_gen (ti : Int) :
    liquidityChangeStep ti
      = pairStepGen (fun op => operation_is_add op || operation_is_remove op)
          Operation.token_0_amount Operation.token_1_amount ti := rfl

theorem volumeChangeStep_eq_gen (ti : Int) :
    volumeChangeStep ti
      = pairStepGen operation_is_swap
          (fun op => |op.token_0_amount|) (fun op => |op.token_1_amount|) ti := rfl

/-- The selection predicate of claims C4/C5: the operation targets `pool`,
passes the guard `q`, and falls in `bucket`. -/
def bucketSelect (q : Operation → Bool) (ti pool bucket : Int)
    (op : Operation) : Bool :=
  decide (op.pool = some ⟨pool⟩) && q op
    && decide (timestamp_point op.timestamp ti = bucket)

/-- The pool-level selection predicate: targets `pool` and passes `q`. -/
def poolSelect (q : Operation → Bool) (pool : Int) (op : Operation) : Bool :=
  decide (op.pool = some ⟨pool⟩) && q op

theorem pairStepGen_lookup0 (q : Operation → Bool) (f0 f1 : Operation → Int)
    (ti pool bucket : Int) (acc : Dict PairSequence) (op : Operation) :
    pairLookup0 (pairStepGen q f0 f1 ti acc op) pool bucket
      = pairLookup0 acc pool bucket
        + (if bucketSelect q ti pool bucket op then f0 op else 0) := by
  rcases hop : op.pool with _ | p
  · simp [pairStepGen, hop, bucketSelect]
  · obtain ⟨pid⟩ := p
    by_cases hq : q op
    · by_cases hid : pid = pool
      · subst hid
        by_cases htk : timestamp_point op.timestamp ti = bucket
        · simp only [pairStepGen, hop, hq, if_true, bucketSelect, htk]
          simp only [pairLookup0, pairGet0, Dict.get_set_self, Option.getD_some,
            htk, Dict.get_set_self]
          simp [Dict.getD, hop, hq, htk]
        · simp only [pairStepGen, hop, hq, if_true, bucketSelect]
          simp only [pairLookup0, pairGet0, Dict.get_set_self, Option.getD_some]
          rw [Dict.get_set_ne _ _ _ _ htk]
          simp [hop, hq, htk]
      · have hne : (pid : Int) ≠ pool := hid
        simp only [pairStepGen, hop, hq, if_true, bucketSelect]
        simp only [pairLookup0, pairGet0]
        rw [Dict.get_set_ne _ _ _ _ hne]
        simp [hop, hid]
    · simp [pairStepGen, hop, hq, bucketSelect]

theorem pairStepGen_lookup1 (q : Operation → Bool) (f0 f1 : Operation → Int)
    (ti pool bucket : Int) (acc : Dict PairSequence) (op : Operation) :
    pairLookup1 (pairStepGen q f0 f1 ti acc op) pool bucket
      = pairLookup1 acc pool bucket
        + (if bucketSelect q ti pool bucket op then f1 op else 0) := by
  rcases hop : op.pool with _ | p
  · simp [pairStepGen, hop, bucketSelect]
  · obtain ⟨pid⟩ := p
    by_cases hq : q op
    · by_cases hid : pid = pool
      · subst hid
        by_cases htk : timestamp_point op.timestamp ti = bucket
        · simp only [pairStepGen, hop, hq, if_true, bucketSelect, htk]
          simp only [pairLookup1, pairGet1, Dict.get_set_self, Option.getD_some,
            htk, Dict.get_set_self]
          simp [Dict.getD, hop, hq, htk]
        · simp only [pairStepGen, hop, hq, if_true, bucketSelect]
          simp only [pairLookup1, pairGet1, Dict.get_set_self, Option.getD_some]
          rw [Dict.get_set_ne _ _ _ _ htk]
          simp [hop, hq, htk]
      · have hne : (pid : Int) ≠ pool := hid
        simp only [pairStepGen, hop, hq, if_true, bucketSelect]
        simp only [pairLookup1, pairGet1]
        rw [Dict.get_set_ne _ _ _ _ hne]
        simp [hop, hid]
    · simp [pairStepGen, hop, hq, bucketSelect]

theorem pairStepGen_poolPresence (q : Operation → Bool) (f0 f1 : Operation → Int)
    (ti pool : Int) (acc : Dict PairSequence) (op : Operation) :
    (Dict.get (pairStepGen q f0 f1 ti acc op) pool).isSome
      ↔ (Dict.get acc pool).isSome ∨ poolSelect q pool op := by
  rcases hop : op.pool with _ | p
  · simp [pairStepGen, hop, poolSelect]
  · obtain ⟨pid⟩ := p
    by_cases hq : q op
    · by_cases hid : pid = pool
      · subst hid
        simp [pairStepGen, hop, hq, poolSelect, Dict.get_set_self]
      · simp only [pairStepGen, hop, hq, if_true]
        rw [Dict.get_set_ne _ _ _ _ hid]
        simp [poolSelect, hop, hid]
    · simp [pairStepGen, hop, hq, poolSelect]

theorem pairStepGen_get0_isSome (q : Operation → Bool) (f0 f1 : Operation → Int)
    (ti pool bucket : Int) (acc : Dict PairSequence) (op : Operation) :
    (pairGet0 (pairStepGen q f0 f1 ti acc op) pool bucket).isSome
      ↔ (pairGet0 acc pool bucket).isSome ∨ bucketSelect q ti pool bucket op := by
  rcases hop : op.pool with _ | p
  · simp [pairStepGen, hop, bucketSelect]
  · obtain ⟨pid⟩ := p
    by_cases hq : q op
    · by_cases hid : pid = pool
      · subst hid
        by_cases htk : timestamp_point op.timestamp ti = bucket
        · simp only [pairStepGen, hop, hq, if_true, pairGet0, Dict.get_set_self,
            Option.getD_some, htk, Dict.get_set_self]
          simp [bucketSelect, hop, hq, htk]
        · simp only [pairStepGen, hop, hq, if_true, pairGet0, Dict.get_set_self,
            Option.getD_some]
          rw [Dict.get_set_ne _ _ _ _ htk]
          simp [bucketSelect, hop, hq, htk]
      · simp only [pairStepGen, hop, hq, if_true, pairGet0]
        rw [Dict.get_set_ne _ _ _ _ (show (pid : Int) ≠ pool from hid)]
        simp [bucketSelect, hop, hid]
    · simp [pairStepGen, hop, hq, bucketSelect]

theorem pairStepGen_get1_isSome (q : Operation → Bool) (f0 f1 : Operation → Int)
    (ti pool bucket : Int) (acc : Dict PairSequence) (op : Operation) :
    (pairGet1 (pairStepGen q f0 f1 ti acc op) pool bucket).isSome
      ↔ (pairGet1 acc pool bucket).isSome ∨ bucketSelect q ti pool bucket op := by
  rcases hop : op.pool with _ | p
  · simp [pairStepGen, hop, bucketSelect]
  · obtain ⟨pid⟩ := p
    by_cases hq : q op
    · by_cases hid : pid = pool
      · subst hid
        by_cases htk : timestamp_point op.timestamp ti = bucket
        · simp only [pairStepGen, hop, hq, if_true, pairGet1, Dict.get_set_self,
            Option.getD_some, htk, Dict.get_set_self]
          simp [bucketSelect, hop, hq, htk]
        · simp only [pairStepGen, hop, hq, if_true, pairGet1, Dict.get_set_self,
            Option.getD_some]
          rw [Dict.get_set_ne _ _ _ _ htk]
          simp [bucketSelect, hop, hq, htk]
      · simp only [pairStepGen, hop, hq, if_true, pairGet1]
        rw [Dict.get_set_ne _ _ _ _ (show (pid : Int) ≠ pool from hid)]
        simp [bucketSelect, hop, hid]
    · simp [pairStepGen, hop, hq, bucketSelect]

theorem pairFold_lookup0 (q : Operation → Bool) (f0 f1 : Operation → Int)
    (ti pool bucket : Int) :
    ∀ (ops : List Operation) (acc : Dict PairSequence),
      pairLookup0 (List.foldl (pairStepGen q f0 f1 ti) acc ops) pool bucket
        = pairLookup0 acc pool bucket
          + ((ops.filter (bucketSelect q ti pool bucket)).map f0).sum := by
  intro ops
  induction ops with
  | nil => intro acc; simp
  | cons op rest ih =>
    intro acc
    simp only [List.foldl_cons, List.filter_cons]
    rw [ih, pairStepGen_lookup0]
    by_cases hsel : bucketSelect q ti pool bucket op <;> (simp [hsel]; try ring)

theorem pairFold_lookup1 (q : Operation → Bool) (f0 f1 : Operation → Int)
    (ti pool bucket : Int) :
    ∀ (ops : List Operation) (acc : Dict PairSequence),
      pairLookup1 (List.foldl (pairStepGen q f0 f1 ti) acc ops) pool bucket
        = pairLookup1 acc pool bucket
          + ((ops.filter (bucketSelect q ti pool bucket)).map f1).sum := by
  intro ops
  induction ops with
  | nil => intro acc; simp
  | cons op rest ih =>
    intro acc
    simp only [List.foldl_cons, List.filter_cons]
    rw [ih, pairStepGen_lookup1]
    by_cases hsel : bucketSelect q ti pool bucket op <;> (simp [hsel]; try ring)

theorem pairFold_poolPresence (q : Operation → Bool) (f0 f1 : Operation → Int)
    (ti pool : Int) :
    ∀ (ops : List Operation) (acc : Dict PairSequence),
      (Dict.get (List.foldl (pairStepGen q f0 f1 ti) acc ops) pool).isSome
        ↔ (Dict.get acc pool).isSome ∨ ops.filter (poolSelect q pool) ≠ [] := by
  intro ops
  induction ops with
  | nil => intro acc; simp
  | cons op rest ih =>
    intro acc
    simp only [List.foldl_cons, List.filter_cons]
    rw [ih, pairStepGen_poolPresence]
    by_cases hsel : poolSelect q pool op <;> simp [hsel, or_assoc, or_comm]

theorem pairFold_get0_isSome (q : Operation → Bool) (f0 f1 : Operation → Int)
    (ti pool bucket : Int) :
    ∀ (ops : List Operation) (acc : Dict PairSequence),
      (pairGet0 (List.foldl (pairStepGen q f0 f1 ti) acc ops) pool bucket).isSome
        ↔ (pairGet0 acc pool bucket).isSome
          ∨ ops.filter (bucketSelect q ti pool bucket) ≠ [] := by
  intro ops
  induction ops with
  | nil => intro acc; simp
  | cons op rest ih =>
    intro acc
    simp only [List.foldl_cons, List.filter_cons]
    rw [ih, pairStepGen_get0_isSome]
    by_cases hsel : bucketSelect q ti pool bucket op <;>
      simp [hsel, or_assoc, or_comm]

theorem pairFold_get1_isSome (q : Operation → Bool) (f0 f1 : Operation → Int)
    (ti pool bucket : Int) :
    ∀ (ops : List Operation) (acc : Dict PairSequence),
      (pairGet1 (List.foldl (pairStepGen q f0 f1 ti) acc ops) pool bucket).isSome
        ↔ (pairGet1 acc pool bucket).isSome
          ∨ ops.filter (bucketSelect q ti pool bucket) ≠ [] := by
  intro ops
  induction ops with
  | nil => intro acc; simp
  | cons op rest ih =>
    intro acc
    simp only [List.foldl_cons, List.filter_cons]
    rw [ih, pairStepGen_get1_isSome]
    by_cases hsel : bucketSelect q ti pool bucket op <;>
      simp [hsel, or_assoc, or_comm]

theorem swapLookup_set_inner (m : Dict (Dict Int)) (pool bucket tk delta : Int) :
    swapLookup (Dict.set m pool (Dict.set ((Dict.get m pool).getD []) tk
      (Dict.getD ((Dict.get m pool).getD []) tk 0 + delta))) pool bucket
      = swapLookup m pool bucket + (if tk = bucket then delta else 0) := by
  by_cases htk : tk = bucket
  · subst htk
    simp [swapLookup, Dict.get_set_self, Dict.getD, Dict.get_set_self]
  · simp only [swapLookup, Dict.get_set_self, Option.getD_some, Dict.getD,
      Dict.get_set_ne _ _ _ _ htk, htk, if_false, add_zero]

theorem swapLookup_set_other (m : Dict (Dict Int)) (pid pool bucket : Int)
    (inner : Dict Int) (h : pid ≠ pool) :
    swapLookup (Dict.set m pid inner) pool bucket = swapLookup m pool bucket := by
  simp [swapLookup, Dict.get_set_ne _ _ _ _ h]

theorem swapLookup_stage1 (m : Dict (Dict Int)) (pid pool bucket : Int)
    (hs : ¬(Dict.get m pid).isSome) :
    swapLookup (Dict.set m pid []) pool bucket = swapLookup m pool bucket := by
  by_cases hid : pid = pool
  · subst hid
    have hnone : Dict.get m pid = none := Option.not_isSome_iff_eq_none.mp hs
    simp [swapLookup, Dict.get_set_self, hnone, Dict.getD, Dict.get]
  · exact swapLookup_set_other m pid pool bucket [] hid

/-- Per-operation effect of the swap-count loop body on a counter value. -/
theorem swapsChangeStep_lookup (ti pool bucket : Int)
    (acc : Dict (Dict Int)) (op : Operation) :
    swapLookup (swapsChangeStep ti acc op) pool bucket
      = swapLookup acc pool bucket
        + (if bucketSelect operation_is_swap ti pool bucket op then 1 else 0) := by
  rcases hop : op.pool with _ | p
  · simp [swapsChangeStep, hop, bucketSelect]
  obtain ⟨pid⟩ := p
  have hsel : bucketSelect operation_is_swap ti pool bucket op
      = (decide ((pid : Int) = pool) && operation_is_swap op
          && decide (timestamp_point op.timestamp ti = bucket)) := by
    simp [bucketSelect, hop, Pool.mk.injEq]
  set m1 := if (Dict.get acc (pid : Int)).isSome then acc
    else Dict.set acc (pid : Int) [] with hm1
  have hm1lookup : swapLookup m1 pool bucket = swapLookup acc pool bucket := by
    rw [hm1]
    by_cases hs : (Dict.get acc (pid : Int)).isSome
    · rw [if_pos hs]
    · rw [if_neg hs]
      exact swapLookup_stage1 acc pid pool bucket hs
  by_cases hq : operation_is_swap op
  · have hres : swapsChangeStep ti acc op
        = Dict.set m1 pid (Dict.set ((Dict.get m1 pid).getD [])
            (timestamp_point op.timestamp ti)
            (Dict.getD ((Dict.get m1 pid).getD [])
              (timestamp_point op.timestamp ti) 0 + 1)) := by
      simp only [swapsChangeStep, hop, hq, if_true, hm1]
    rw [hres, hsel]
    by_cases hid : (pid : Int) = pool
    · subst hid
      rw [swapLookup_set_inner, hm1lookup]
      simp [hq]
    · rw [swapLookup_set_other _ _ _ _ _ hid, hm1lookup]
      simp [hid]
  · have hres : swapsChangeStep ti acc op = m1 := by
      simp only [swapsChangeStep, hop, hm1]
      rw [if_neg hq]
    rw [hres, hm1lookup, hsel]
    simp [hq]

/-- Per-operation effect of the swap-count loop body on pool presence:
any operation with a pool creates the pool entry. -/
theorem swapsChangeStep_poolPresence (ti pool : Int)
    (acc : Dict (Dict Int)) (op : Operation) :
    (Dict.get (swapsChangeStep ti acc op) pool).isSome
      ↔ (Dict.get acc pool).isSome ∨ op.pool = some ⟨pool⟩ := by
  rcases hop : op.pool with _ | p
  · simp [swapsChangeStep, hop]
  obtain ⟨pid⟩ := p
  set m1 := if (Dict.get acc (pid : Int)).isSome then acc
    else Dict.set acc (pid : Int) [] with hm1
  have hm1pres : (Dict.get m1 pool).isSome
      ↔ (Dict.get acc pool).isSome ∨ (pid : Int) = pool := by
    rw [hm1]
    by_cases hs : (Dict.get acc (pid : Int)).isSome
    · rw [if_pos hs]
      constructor
      · exact Or.inl
      · rintro (h | rfl)
        · exact h
        · exact hs
    · rw [if_neg hs]
      by_cases hid : (pid : Int) = pool
      · subst hid
        simp [Dict.get_set_self]
      · rw [Dict.get_set_ne _ _ _ _ hid]
        simp [hid]
  by_cases hq : operation_is_swap op
  · have hres : swapsChangeStep ti acc op
        = Dict.set m1 pid (Dict.set ((Dict.get m1 pid).getD [])
            (timestamp_point op.timestamp ti)
            (Dict.getD ((Dict.get m1 pid).getD [])
              (timestamp_point op.timestamp ti) 0 + 1)) := by
      simp only [swapsChangeStep, hop, hq, if_true, hm1]
    rw [hres]
    by_cases hid : (pid : Int) = pool
    · subst hid
      simp [Dict.get_set_self]
    · rw [Dict.get_set_ne _ _ _ _ hid, hm1pres]
      simp [hid]
  · have hres : swapsChangeStep ti acc op = m1 := by
      simp only [swapsChangeStep, hop, hm1]
      rw [if_neg hq]
    rw [hres, hm1pres]
    simp

theorem swapsFold_lookup (ti pool bucket : Int) :
    ∀ (ops : List Operation) (acc : Dict (Dict Int)),
      swapLookup (List.foldl (swapsChangeStep ti) acc ops) pool bucket
        = swapLookup acc pool bucket
          + ((ops.filter (bucketSelect operation_is_swap ti pool bucket)).length : Int) := by
  intro ops
  induction ops with
  | nil => intro acc; simp
  | cons op rest ih =>
    intro acc
    simp only [List.foldl_cons, List.filter_cons]
    rw [ih, swapsChangeStep_lookup]
    by_cases hsel : bucketSelect operation_is_swap ti pool bucket op <;>
      (simp [hsel]; try ring)

theorem swapsFold_poolPresence (ti pool : Int) :
    ∀ (ops : List Operation) (acc : Dict (Dict Int)),
      (Dict.get (List.foldl (swapsChangeStep ti) acc ops) pool).isSome
        ↔ (Dict.get acc pool).isSome
          ∨ ops.filter (fun op => decide (op.pool = some ⟨pool⟩)) ≠ [] := by
  intro ops
  induction ops with
  | nil => intro acc; simp
  | cons op rest ih =>
    intro acc
    simp only [List.foldl_cons, List.filter_cons]
    rw [ih, swapsChangeStep_poolPresence]
    by_cases hsel : op.pool = some (⟨pool⟩ : Pool) <;>
      simp [hsel, or_assoc, or_comm]

/-! ### Claim theorems -/

/-- C1 counterexample: in the claimed scenario the two operations carry no
`operation_type`, and both have opposite-signed amounts, so the fallback
heuristic classifies them as swaps and neither `operation_is_add` nor
`operation_is_remove` matches; the liquidity change and sequence maps
therefore contain no entry for pool 1, contradicting the claimed bucket-0
value (80, -40). -/
theorem C1_untagged_scenario_yields_empty_maps :
    Dict.get (calc_liquidity_change_map
      [⟨some ⟨1⟩, 0, 100, -50, none⟩, ⟨some ⟨1⟩, 50, -20, 10, none⟩] 60) 1 = none
    ∧ Dict.get (calc_liquidity_sequence_map
      [⟨some ⟨1⟩, 0, 100, -50, none⟩, ⟨some ⟨1⟩, 50, -20, 10, none⟩] 60 120) 1
        = none := by
  decide

/-- C1 (amended): with the two scenario operations explicitly tagged as
`add` and `remove`, `calc_liquidity_change_map` with `time_interval = 60`
gives pool 1 the single bucket 0 ↦ (80, -40), and
`calc_liquidity_sequence_map` with `now_timestamp = 120` carries the total
forward: `{0 ↦ (80, -40), 60 ↦ (80, -40)}`.  (Untagged, the scenario
operations classify as swaps and produce empty liquidity maps.) -/
theorem C1_liquidity_scenario :
    calc_liquidity_change_map
      [⟨some ⟨1⟩, 0, 100, -50, some ⟨"add"⟩⟩,
        ⟨some ⟨1⟩, 50, -20, 10, some ⟨"remove"⟩⟩] 60
      = [(1, ⟨[(0, 80)], [(0, -40)]⟩)]
    ∧ calc_liquidity_sequence_map
      [⟨some ⟨1⟩, 0, 100, -50, some ⟨"add"⟩⟩,
        ⟨some ⟨1⟩, 50, -20, 10, some ⟨"remove"⟩⟩] 60 120
      = [(1, ⟨[(0, 80), (60, 80)], [(0, -40), (60, -40)]⟩)] := by
  decide

/-- C4: the liquidity change map value at `[pool][bucket]` is the signed
sum of `token_0_amount` (resp. `token_1_amount`) over exactly the
operations in that pool and bucket satisfying `operation_is_add` or
`operation_is_remove`; a bucket entry (resp. a pool entry) exists exactly
when some such operation contributes to it. -/
theorem C4_liquidity_change_characterization (ops : List Operation)
    (ti pool bucket : Int) :
    pairLookup0 (calc_liquidity_change_map ops ti) pool bucket
      = ((ops.filter (bucketSelect
          (fun op => operation_is_add op || operation_is_remove op)
          ti pool bucket)).map Operation.token_0_amount).sum
    ∧ pairLookup1 (calc_liquidity_change_map ops ti) pool bucket
      = ((ops.filter (bucketSelect
          (fun op => operation_is_add op || operation_is_remove op)
          ti pool bucket)).map Operation.token_1_amount).sum
    ∧ ((pairGet0 (calc_liquidity_change_map ops ti) pool bucket).isSome
      ↔ ops.filter (bucketSelect
          (fun op => operation_is_add op || operation_is_remove op)
          ti pool bucket) ≠ [])
    ∧ ((pairGet1 (calc_liquidity_change_map ops ti) pool bucket).isSome
      ↔ ops.filter (bucketSelect
          (fun op => operation_is_add op || operation_is_remove op)
          ti pool bucket) ≠ [])
    ∧ ((Dict.get (calc_liquidity_change_map ops ti) pool).isSome
      ↔ ops.filter (poolSelect
          (fun op => operation_is_add op || operation_is_remove op) pool) ≠ []) := by
  have he : calc_liquidity_change_map ops ti
      = List.foldl (pairStepGen
          (fun op => operation_is_add op || operation_is_remove op)
          Operation.token_0_amount Operation.token_1_amount ti) [] ops := by
    rw [calc_liquidity_change_map, liquidityChangeStep_eq_gen]
  rw [he]
  refine ⟨?_, ?_, ?_, ?_, ?_⟩
  · rw [pairFold_lookup0]
    simp [pairLookup0, pairGet0, PairSequence.empty, Dict.get, Dict.getD]
  · rw [pairFold_lookup1]
    simp [pairLookup1, pairGet1, PairSequence.empty, Dict.get, Dict.getD]
  · rw [pairFold_get0_isSome]
    simp [pairGet0, PairSequence.empty, Dict.get]
  · rw [pairFold_get1_isSome]
    simp [pairGet1, PairSequence.empty, Dict.get]
  · rw [pairFold_poolPresence]
    simp [Dict.get]

/-- C5: the volume change map value at `[pool][bucket]` is the sum of
`abs(token_0_amount)` (resp. `abs(token_1_amount)`) over exactly the swap
operations in that pool and bucket; a bucket entry (resp. a pool entry)
exists exactly when some swap operation contributes to it. -/
theorem C5_volume_change_characterization (ops : List Operation)
    (ti pool bucket : Int) :
    pairLookup0 (calc_volume_change_map ops ti) pool bucket
      = ((ops.filter (bucketSelect operation_is_swap ti pool bucket)).map
          (fun op => |op.token_0_amount|)).sum
    ∧ pairLookup1 (calc_volume_change_map ops ti) pool bucket
      = ((ops.filter (bucketSelect operation_is_swap ti pool bucket)).map
          (fun op => |op.token_1_amount|)).sum
    ∧ ((pairGet0 (calc_volume_change_map ops ti) pool bucket).isSome
      ↔ ops.filter (bucketSelect operation_is_swap ti pool bucket) ≠ [])
    ∧ ((pairGet1 (calc_volume_change_map ops ti) pool bucket).isSome
      ↔ ops.filter (bucketSelect operation_is_swap ti pool bucket) ≠ [])
    ∧ ((Dict.get (calc_volume_change_map ops ti) pool).isSome
      ↔ ops.filter (poolSelect operation_is_swap pool) ≠ []) := by
  have he : calc_volume_change_map ops ti
      = List.foldl (pairStepGen operation_is_swap
          (fun op => |op.token_0_amount|) (fun op => |op.token_1_amount|) ti)
          [] ops := by
    rw [calc_volume_change_map, volumeChangeStep_eq_gen]
  rw [he]
  refine ⟨?_, ?_, ?_, ?_, ?_⟩
  · rw [pairFold_lookup0]
    simp [pairLookup0, pairGet0, PairSequence.empty, Dict.get, Dict.getD]
  · rw [pairFold_lookup1]
    simp [pairLookup1, pairGet1, PairSequence.empty, Dict.get, Dict.getD]
  · rw [pairFold_get0_isSome]
    simp [pairGet0, PairSequence.empty, Dict.get]
  · rw [pairFold_get1_isSome]
    simp [pairGet1, PairSequence.empty, Dict.get]
  · rw [pairFold_poolPresence]
    simp [Dict.get]

/-- C6: `calc_swaps_change_map` has an entry (possibly an empty inner map)
for exactly the pools appearing on some operation, and the counter at
`[pool][bucket]` (default 0) equals the number of swap operations in that
pool and bucket. -/
theorem C6_swaps_change_characterization (ops : List Operation)
    (ti pool bucket : Int) :
    ((Dict.get (calc_swaps_change_map ops ti) pool).isSome
      ↔ ops.filter (fun op => decide (op.pool = some ⟨pool⟩)) ≠ [])
    ∧ swapLookup (calc_swaps_change_map ops ti) pool bucket
      = ((ops.filter (bucketSelect operation_is_swap ti pool bucket)).length : Int) := by
  constructor
  · rw [calc_swaps_change_map, swapsFold_poolPresence]
    simp [Dict.get]
  · rw [calc_swaps_change_map, swapsFold_lookup]
    simp [swapLookup, Dict.get, Dict.getD]

/-- C2: in the liquidity sequence map, every bucket `b` enumerated from the
first change bucket of the pool up to (exclusive) `now_timestamp` is present,
and its value is the value of the previous bucket (default 0) plus the change
map entry at `b` (default 0), for both tokens — so a bucket with no
recorded change inherits the prior total unchanged. -/
theorem C2_liquidity_reconstruction (ops : List Operation)
    (ti now pool b : Int) (cs sq : PairSequence)
    (hti : 0 < ti)
    (hc : Dict.get (calc_liquidity_change_map ops ti) pool = some cs)
    (hs : Dict.get (calc_liquidity_sequence_map ops ti now) pool = some sq)
    (hb : b ∈ pyRange (get_start_time_pair cs now) now ti) :
    Dict.getD sq.token_0 b 0
      = Dict.getD sq.token_0 (b - ti) 0 + Dict.getD cs.token_0 b 0
    ∧ Dict.getD sq.token_1 b 0
      = Dict.getD sq.token_1 (b - ti) 0 + Dict.getD cs.token_1 b 0
    ∧ (Dict.get sq.token_0 b).isSome ∧ (Dict.get sq.token_1 b).isSome := by
  have hmap := calc_liquidity_sequence_map_get ops ti now pool
  rw [hc, hs] at hmap
  have hsq : sq = buildLiquiditySeq cs ti now := by
    simpa using hmap
  have h0 : sq.token_0 = (pyRange (get_start_time_pair cs now) now ti).foldl
      (liqStep0 cs.token_0 ti) [] := by
    rw [hsq]
    exact foldl_liquiditySeqStep_token_0 cs ti _ PairSequence.empty
  have h1 : sq.token_1 = (pyRange (get_start_time_pair cs now) now ti).foldl
      (liqStep0 cs.token_1 ti) [] := by
    rw [hsq]
    exact foldl_liquiditySeqStep_token_1 cs ti _ PairSequence.empty
  unfold pyRange at h0 h1 hb
  obtain ⟨spec0, _⟩ := liqFold_spec cs.token_0 now ti hti
    ((now - get_start_time_pair cs now).toNat) (get_start_time_pair cs now) []
    (by intro j hj; simp [Dict.keys] at hj)
  obtain ⟨spec1, _⟩ := liqFold_spec cs.token_1 now ti hti
    ((now - get_start_time_pair cs now).toNat) (get_start_time_pair cs now) []
    (by intro j hj; simp [Dict.keys] at hj)
  have e0 := spec0 b hb
  have e1 := spec1 b hb
  rw [← h0] at e0
  rw [← h1] at e1
  refine ⟨?_, ?_, ?_, ?_⟩
  · rw [Dict.getD, e0]
    rfl
  · rw [Dict.getD, e1]
    rfl
  · rw [e0]
    rfl
  · rw [e1]
    rfl

/-- C2 witness: the carry-forward relation at the concrete tagged scenario,
pool 1, bucket 60. -/
theorem C2_liquidity_reconstruction_witness :
    Dict.getD ([(0, 80), (60, 80)] : Dict Int) 60 0
      = Dict.getD ([(0, 80), (60, 80)] : Dict Int) (60 - 60) 0
        + Dict.getD ([(0, 80)] : Dict Int) 60 0
    ∧ Dict.getD ([(0, -40), (60, -40)] : Dict Int) 60 0
      = Dict.getD ([(0, -40), (60, -40)] : Dict Int) (60 - 60) 0
        + Dict.getD ([(0, -40)] : Dict Int) 60 0
    ∧ (Dict.get ([(0, 80), (60, 80)] : Dict Int) 60).isSome
    ∧ (Dict.get ([(0, -40), (60, -40)] : Dict Int) 60).isSome :=
  C2_liquidity_reconstruction
    [⟨some ⟨1⟩, 0, 100, -50, some ⟨"add"⟩⟩,
      ⟨some ⟨1⟩, 50, -20, 10, some ⟨"remove"⟩⟩]
    60 120 1 60 ⟨[(0, 80)], [(0, -40)]⟩
    ⟨[(0, 80), (60, 80)], [(0, -40), (60, -40)]⟩
    (by decide) (by decide) (by decide) (by decide)

/-- C3: the volume and swap-count sequence maps densely fill every bucket
enumerated from the first change bucket up to (exclusive)
`now_timestamp`: the bucket is present, with the value of the change map entry
when present and 0 otherwise — no carry-forward. -/
theorem C3_dense_fill (ops : List Operation) (ti now pool b : Int)
    (hti : 0 < ti) :
    (∀ cs sq, Dict.get (calc_volume_change_map ops ti) pool = some cs →
      Dict.get (calc_volume_sequence_map ops ti now) pool = some sq →
      b ∈ pyRange (get_start_time_pair cs now) now ti →
      Dict.get sq.token_0 b = some (Dict.getD cs.token_0 b 0)
      ∧ Dict.get sq.token_1 b = some (Dict.getD cs.token_1 b 0))
    ∧ (∀ cs sq, Dict.get (calc_swaps_change_map ops ti) pool = some cs →
      Dict.get (calc_swaps_sequence_map ops ti now) pool = some sq →
      b ∈ pyRange (get_start_time_dict cs now) now ti →
      Dict.get sq b = some (Dict.getD cs b 0)) := by
  constructor
  · intro cs sq hc hs hb
    have hmap := calc_volume_sequence_map_get ops ti now pool
    rw [hc, hs] at hmap
    have hsq : sq = buildVolumeSeq cs ti now := by
      simpa using hmap
    have h0 : sq.token_0 = (pyRange (get_start_time_pair cs now) now ti).foldl
        (denseStep0 cs.token_0) [] := by
      rw [hsq]
      exact foldl_volumeSeqStep_token_0 cs _ PairSequence.empty
    have h1 : sq.token_1 = (pyRange (get_start_time_pair cs now) now ti).foldl
        (denseStep0 cs.token_1) [] := by
      rw [hsq]
      exact foldl_volumeSeqStep_token_1 cs _ PairSequence.empty
    unfold pyRange at h0 h1 hb
    obtain ⟨spec0, _⟩ := denseFold_spec cs.token_0 now ti hti
      ((now - get_start_time_pair cs now).toNat) (get_start_time_pair cs now) []
      (by intro j hj; simp [Dict.keys] at hj)
    obtain ⟨spec1, _⟩ := denseFold_spec cs.token_1 now ti hti
      ((now - get_start_time_pair cs now).toNat) (get_start_time_pair cs now) []
      (by intro j hj; simp [Dict.keys] at hj)
    have e0 := spec0 b hb
    have e1 := spec1 b hb
    rw [← h0] at e0
    rw [← h1] at e1
    exact ⟨e0, e1⟩
  · intro cs sq hc hs hb
    have hmap := calc_swaps_sequence_map_get ops ti now pool
    rw [hc, hs] at hmap
    have hsq : sq = buildSwapsSeq cs ti now := by
      simpa using hmap
    have h0 : sq = (pyRange (get_start_time_dict cs now) now ti).foldl
        (denseStep0 cs) [] := by
      rw [hsq]
      exact foldl_swapsSeqStep_eq cs _ []
    unfold pyRange at h0 hb
    obtain ⟨spec0, _⟩ := denseFold_spec cs now ti hti
      ((now - get_start_time_dict cs now).toNat) (get_start_time_dict cs now) []
      (by intro j hj; simp [Dict.keys] at hj)
    have e0 := spec0 b hb
    rw [← h0] at e0
    exact e0

/-- C3 witness: dense fill at the concrete swap scenario, pool 1,
bucket 60 (absent from the change map, filled with 0 / (0,0)). -/
theorem C3_dense_fill_witness :
    (Dict.get ([(0, 120), (60, 0)] : Dict Int) 60 = some (Dict.getD ([(0, 120)] : Dict Int) 60 0)
    ∧ Dict.get ([(0, 60), (60, 0)] : Dict Int) 60 = some (Dict.getD ([(0, 60)] : Dict Int) 60 0))
    ∧ Dict.get ([(0, 2), (60, 0)] : Dict Int) 60 = some (Dict.getD ([(0, 2)] : Dict Int) 60 0) := by
  have h := C3_dense_fill
    [⟨some ⟨1⟩, 0, 100, -50, none⟩, ⟨some ⟨1⟩, 50, -20, 10, none⟩]
    60 120 1 60 (by decide)
  exact ⟨h.1 ⟨[(0, 120)], [(0, 60)]⟩ ⟨[(0, 120), (60, 0)], [(0, 60), (60, 0)]⟩
      (by decide) (by decide) (by decide),
    h.2 [(0, 2)] [(0, 2), (60, 0)] (by decide) (by decide) (by decide)⟩

/-- C8: a pool with an empty inner change map is safe: `get_start_time`
returns the default on an empty dict, the iteration range from
`now_timestamp` to itself is empty, and the swap sequence map maps such a
pool to an empty sequence. -/
theorem C8_empty_pool_safety (ops : List Operation) (ti now dflt pool : Int) :
    get_start_time_dict [] dflt = dflt
    ∧ pyRange now now ti = []
    ∧ (Dict.get (calc_swaps_change_map ops ti) pool = some [] →
        Dict.get (calc_swaps_sequence_map ops ti now) pool = some []) := by
  refine ⟨rfl, pyRange_self now ti, ?_⟩
  intro hc
  rw [calc_swaps_sequence_map_get, hc]
  have hb : buildSwapsSeq [] ti now = [] := by
    show List.foldl (swapsSeqStep []) []
      (pyRange (get_start_time_dict [] now) now ti) = []
    rw [show get_start_time_dict ([] : Dict Int) now = now from rfl,
      pyRange_self]
    rfl
  simp [hb]

/-- C8 witness: a non-swap operation on pool 2 creates an empty change map
entry for pool 2, and the swap sequence map then maps pool 2 to an empty
sequence without failing. -/
theorem C8_empty_pool_safety_witness :
    Dict.get (calc_swaps_sequence_map [⟨some ⟨2⟩, 0, 5, 7, none⟩] 60 120) 2
      = some [] :=
  (C8_empty_pool_safety [⟨some ⟨2⟩, 0, 5, 7, none⟩] 60 120 0 2).2.2 (by decide)

/-- C9: every bucket key present in the entry of a pool of any of the three
sequence maps lies at or above the earliest change-map bucket and
strictly below `now_timestamp`; operations bucketed at or after
`now_timestamp` therefore contribute to no sequence entry. -/
theorem C9_sequence_keys_bounded (ops : List Operation)
    (ti now pool b : Int) (hti : 0 < ti) :
    (∀ cs sq, Dict.get (calc_liquidity_change_map ops ti) pool = some cs →
      Dict.get (calc_liquidity_sequence_map ops ti now) pool = some sq →
      ((Dict.get sq.token_0 b).isSome ∨ (Dict.get sq.token_1 b).isSome) →
      get_start_time_pair cs now ≤ b ∧ b < now)
    ∧ (∀ cs sq, Dict.get (calc_volume_change_map ops ti) pool = some cs →
      Dict.get (calc_volume_sequence_map ops ti now) pool = some sq →
      ((Dict.get sq.token_0 b).isSome ∨ (Dict.get sq.token_1 b).isSome) →
      get_start_time_pair cs now ≤ b ∧ b < now)
    ∧ (∀ cs sq, Dict.get (calc_swaps_change_map ops ti) pool = some cs →
      Dict.get (calc_swaps_sequence_map ops ti now) pool = some sq →
      (Dict.get sq b).isSome →
      get_start_time_dict cs now ≤ b ∧ b < now) := by
  refine ⟨?_, ?_, ?_⟩
  · intro cs sq hc hs hsome
    have hmap := calc_liquidity_sequence_map_get ops ti now pool
    rw [hc, hs] at hmap
    have hsq : sq = buildLiquiditySeq cs ti now := by simpa using hmap
    have hmem : b ∈ pyRange (get_start_time_pair cs now) now ti := by
      rcases hsome with hsome | hsome
      · have h0 : (buildLiquiditySeq cs ti now).token_0
            = (pyRange (get_start_time_pair cs now) now ti).foldl
                (liqStep0 cs.token_0 ti) [] :=
          foldl_liquiditySeqStep_token_0 cs ti _ PairSequence.empty
        rw [hsq, h0] at hsome
        rcases foldl_set_mem
            (fun s k => Dict.getD s (k - ti) 0 + Dict.getD cs.token_0 k 0)
            _ _ b hsome with h | h
        · exact h
        · simp [Dict.get] at h
      · have h1 : (buildLiquiditySeq cs ti now).token_1
            = (pyRange (get_start_time_pair cs now) now ti).foldl
                (liqStep0 cs.token_1 ti) [] :=
          foldl_liquiditySeqStep_token_1 cs ti _ PairSequence.empty
        rw [hsq, h1] at hsome
        rcases foldl_set_mem
            (fun s k => Dict.getD s (k - ti) 0 + Dict.getD cs.token_1 k 0)
            _ _ b hsome with h | h
        · exact h
        · simp [Dict.get] at h
    exact mem_pyRange_bounds hti hmem
  · intro cs sq hc hs hsome
    have hmap := calc_volume_sequence_map_get ops ti now pool
    rw [hc, hs] at hmap
    have hsq : sq = buildVolumeSeq cs ti now := by simpa using hmap
    have hmem : b ∈ pyRange (get_start_time_pair cs now) now ti := by
      rcases hsome with hsome | hsome
      · have h0 : (buildVolumeSeq cs ti now).token_0
            = (pyRange (get_start_time_pair cs now) now ti).foldl
                (denseStep0 cs.token_0) [] :=
          foldl_volumeSeqStep_token_0 cs _ PairSequence.empty
        rw [hsq, h0] at hsome
        rcases foldl_set_mem (fun _ k => Dict.getD cs.token_0 k 0)
            _ _ b hsome with h | h
        · exact h
        · simp [Dict.get] at h
      · have h1 : (buildVolumeSeq cs ti now).token_1
            = (pyRange (get_start_time_pair cs now) now ti).foldl
                (denseStep0 cs.token_1) [] :=
          foldl_volumeSeqStep_token_1 cs _ PairSequence.empty
        rw [hsq, h1] at hsome
        rcases foldl_set_mem (fun _ k => Dict.getD cs.token_1 k 0)
            _ _ b hsome with h | h
        · exact h
        · simp [Dict.get] at h
    exact mem_pyRange_bounds hti hmem
  · intro cs sq hc hs hsome
    have hmap := calc_swaps_sequence_map_get ops ti now pool
    rw [hc, hs] at hmap
    have hsq : sq = buildSwapsSeq cs ti now := by simpa using hmap
    have hmem : b ∈ pyRange (get_start_time_dict cs now) now ti := by
      have h0 : buildSwapsSeq cs ti now
          = (pyRange (get_start_time_dict cs now) now ti).foldl
              (denseStep0 cs) [] :=
        foldl_swapsSeqStep_eq cs _ []
      rw [hsq, h0] at hsome
      rcases foldl_set_mem (fun _ k => Dict.getD cs k 0) _ _ b hsome with h | h
      · exact h
      · simp [Dict.get] at h
    exact mem_pyRange_bounds hti hmem

/-- C9 witness: the bound at the concrete swap scenario, pool 1,
bucket 60. -/
theorem C9_sequence_keys_bounded_witness :
    get_start_time_pair ⟨[(0, 120)], [(0, 60)]⟩ 120 ≤ 60 ∧ (60 : Int) < 120 :=
  (C9_sequence_keys_bounded
    [⟨some ⟨1⟩, 0, 100, -50, none⟩, ⟨some ⟨1⟩, 50, -20, 10, none⟩]
    60 120 1 60 (by decide)).2.1
    ⟨[(0, 120)], [(0, 60)]⟩ ⟨[(0, 120), (60, 0)], [(0, 60), (60, 0)]⟩
    (by decide) (by decide) (Or.inl (by decide))

/-! ### Non-negativity invariants -/

theorem Dict.get_set_cases {α : Type} {d : Dict α} {k k' : Int} {v w : α}
    (h : Dict.get (Dict.set d k v) k' = some w) :
    (k = k' ∧ w = v) ∨ Dict.get d k' = some w := by
  by_cases hk : k = k'
  · subst hk
    rw [Dict.get_set_self] at h
    exact Or.inl ⟨rfl, (Option.some_inj.mp h).symm⟩
  · rw [Dict.get_set_ne _ _ _ _ hk] at h
    exact Or.inr h

theorem Dict.getD_zero_nonneg {d : Dict Int}
    (h : ∀ k v, Dict.get d k = some v → 0 ≤ v) (k : Int) :
    0 ≤ Dict.getD d k 0 := by
  unfold Dict.getD
  cases hg : Dict.get d k
  · simp
  · simpa using h k _ hg

/-- Both token dicts of a pair sequence hold only non-negative values. -/
def pairNonneg (ps : PairSequence) : Prop :=
  (∀ k v, Dict.get ps.token_0 k = some v → 0 ≤ v)
  ∧ (∀ k v, Dict.get ps.token_1 k = some v → 0 ≤ v)

theorem pairNonneg_empty : pairNonneg PairSequence.empty := by
  constructor <;> intro k v h <;> simp [PairSequence.empty, Dict.get] at h

theorem pairNonneg_getD (acc : Dict PairSequence)
    (h : ∀ pool ps, Dict.get acc pool = some ps → pairNonneg ps) (pid : Int) :
    pairNonneg ((Dict.get acc pid).getD PairSequence.empty) := by
  cases hg : Dict.get acc pid
  · simpa using pairNonneg_empty
  · simpa using h pid _ hg

theorem volumeChangeStep_nonneg (ti : Int) (acc : Dict PairSequence)
    (op : Operation)
    (h : ∀ pool ps, Dict.get acc pool = some ps → pairNonneg ps) :
    ∀ pool ps, Dict.get (volumeChangeStep ti acc op) pool = some ps →
      pairNonneg ps := by
  intro pool ps hps
  rcases hop : op.pool with _ | p
  · simp only [volumeChangeStep, hop] at hps
    exact h pool ps hps
  · simp only [volumeChangeStep, hop] at hps
    by_cases hq : operation_is_swap op
    · rw [if_pos hq] at hps
      have hold := pairNonneg_getD acc h p.id
      rcases Dict.get_set_cases hps with ⟨_, hpsval⟩ | hacc
      · subst hpsval
        constructor
        · intro k v hkv
          rcases Dict.get_set_cases hkv with ⟨_, hval⟩ | holdv
          · subst hval
            exact add_nonneg (Dict.getD_zero_nonneg hold.1 _) (abs_nonneg _)
          · exact hold.1 k v holdv
        · intro k v hkv
          rcases Dict.get_set_cases hkv with ⟨_, hval⟩ | holdv
          · subst hval
            exact add_nonneg (Dict.getD_zero_nonneg hold.2 _) (abs_nonneg _)
          · exact hold.2 k v holdv
      · exact h pool ps hacc
    · rw [if_neg hq] at hps
      exact h pool ps hps

theorem volumeFold_nonneg (ti : Int) :
    ∀ (ops : List Operation) (acc : Dict PairSequence),
      (∀ pool ps, Dict.get acc pool = some ps → pairNonneg ps) →
      ∀ pool ps,
        Dict.get (List.foldl (volumeChangeStep ti) acc ops) pool = some ps →
        pairNonneg ps := by
  intro ops
  induction ops with
  | nil => intro acc hacc; exact hacc
  | cons op rest ih =>
    intro acc hacc
    exact ih _ (volumeChangeStep_nonneg ti acc op hacc)

/-- All counters of a swap-count map are non-negative. -/
def innerNonneg (m : Dict (Dict Int)) : Prop :=
  ∀ pool cs, Dict.get m pool = some cs → ∀ k v, Dict.get cs k = some v → 0 ≤ v

theorem swapsChangeStep_nonneg (ti : Int) (acc : Dict (Dict Int))
    (op : Operation) (h : innerNonneg acc) :
    innerNonneg (swapsChangeStep ti acc op) := by
  intro pool cs hcs k v hv
  rcases hop : op.pool with _ | p
  · simp only [swapsChangeStep, hop] at hcs
    exact h pool cs hcs k v hv
  · have hm1 : innerNonneg (if (Dict.get acc p.id).isSome then acc
        else Dict.set acc p.id []) := by
      by_cases hs : (Dict.get acc p.id).isSome
      · rw [if_pos hs]
        exact h
      · rw [if_neg hs]
        intro pool' cs' hcs' k' v' hv'
        rcases Dict.get_set_cases hcs' with ⟨_, hval⟩ | hold
        · subst hval
          simp [Dict.get] at hv'
        · exact h pool' cs' hold k' v' hv'
    have hinner : ∀ k' v', Dict.get ((Dict.get (if (Dict.get acc p.id).isSome
        then acc else Dict.set acc p.id []) p.id).getD []) k' = some v' →
        0 ≤ v' := by
      cases hg : Dict.get (if (Dict.get acc p.id).isSome then acc
        else Dict.set acc p.id []) p.id
      · intro k' v' hkv
        simp [Dict.get] at hkv
      · intro k' v' hkv
        exact hm1 p.id _ hg k' v' (by simpa using hkv)
    by_cases hq : operation_is_swap op
    · simp only [swapsChangeStep, hop] at hcs
      rw [if_pos hq] at hcs
      rcases Dict.get_set_cases hcs with ⟨_, hval⟩ | hold
      · subst hval
        rcases Dict.get_set_cases hv with ⟨_, hvval⟩ | holdv
        · subst hvval
          have := Dict.getD_zero_nonneg hinner (timestamp_point op.timestamp ti)
          omega
        · exact hinner k v holdv
      · exact hm1 pool cs hold k v hv
    · simp only [swapsChangeStep, hop] at hcs
      rw [if_neg hq] at hcs
      exact hm1 pool cs hcs k v hv

theorem swapsFold_nonneg (ti : Int) :
    ∀ (ops : List Operation) (acc : Dict (Dict Int)),
      innerNonneg acc →
      innerNonneg (List.foldl (swapsChangeStep ti) acc ops) := by
  intro ops
  induction ops with
  | nil => intro acc hacc; exact hacc
  | cons op rest ih =>
    intro acc hacc
    exact ih _ (swapsChangeStep_nonneg ti acc op hacc)

/-- Values inserted by a fold of `set`s all satisfying `P`, over an initial
dict whose values satisfy `P`, yield only values satisfying `P`. -/
theorem foldl_set_vals (g : Dict Int → Int → Int) (P : Int → Prop)
    (hg : ∀ s k, P (g s k)) :
    ∀ (L : List Int) (seq : Dict Int),
      (∀ k v, Dict.get seq k = some v → P v) →
      ∀ k v, Dict.get (L.foldl (fun s j => Dict.set s j (g s j)) seq) k = some v →
        P v := by
  intro L
  induction L with
  | nil => intro seq hseq k v hv; exact hseq k v hv
  | cons j L ih =>
    intro seq hseq k v hv
    simp only [List.foldl_cons] at hv
    refine ih _ ?_ k v hv
    intro k' v' hv'
    rcases Dict.get_set_cases hv' with ⟨_, hval⟩ | hold
    · subst hval
      exact hg seq j
    · exact hseq k' v' hold

/-- C10: every token value stored in the volume change and sequence maps is
non-negative (only absolute values are accumulated), and every counter
stored in the swap-count change and sequence maps is non-negative. -/
theorem C10_nonnegativity (ops : List Operation) (ti now pool b : Int) :
    (∀ ps v, Dict.get (calc_volume_change_map ops ti) pool = some ps →
      ((Dict.get ps.token_0 b = some v → 0 ≤ v)
        ∧ (Dict.get ps.token_1 b = some v → 0 ≤ v)))
    ∧ (∀ sq v, Dict.get (calc_volume_sequence_map ops ti now) pool = some sq →
      ((Dict.get sq.token_0 b = some v → 0 ≤ v)
        ∧ (Dict.get sq.token_1 b = some v → 0 ≤ v)))
    ∧ (∀ cs n, Dict.get (calc_swaps_change_map ops ti) pool = some cs →
      Dict.get cs b = some n → 0 ≤ n)
    ∧ (∀ sq n, Dict.get (calc_swaps_sequence_map ops ti now) pool = some sq →
      Dict.get sq b = some n → 0 ≤ n) := by
  have hvc : ∀ pool' ps, Dict.get (calc_volume_change_map ops ti) pool' = some ps →
      pairNonneg ps := by
    intro pool' ps hps
    refine volumeFold_nonneg ti ops [] ?_ pool' ps hps
    intro pool'' ps' hps'
    simp [Dict.get] at hps'
  have hsc : innerNonneg (calc_swaps_change_map ops ti) := by
    refine swapsFold_nonneg ti ops [] ?_
    intro pool' cs hcs
    simp [Dict.get] at hcs
  refine ⟨?_, ?_, ?_, ?_⟩
  · intro ps v hps
    exact ⟨fun hv => (hvc pool ps hps).1 b v hv,
      fun hv => (hvc pool ps hps).2 b v hv⟩
  · intro sq v hsq
    have hmap := calc_volume_sequence_map_get ops ti now pool
    rw [hsq] at hmap
    cases hg : Dict.get (calc_volume_change_map ops ti) pool with
    | none =>
      rw [hg] at hmap
      simp at hmap
    | some cs =>
      rw [hg] at hmap
      have hsqb : sq = buildVolumeSeq cs ti now := by simpa using hmap
      have hcs := hvc pool cs hg
      have h0 : sq.token_0 = (pyRange (get_start_time_pair cs now) now ti).foldl
          (denseStep0 cs.token_0) [] := by
        rw [hsqb]
        exact foldl_volumeSeqStep_token_0 cs _ PairSequence.empty
      have h1 : sq.token_1 = (pyRange (get_start_time_pair cs now) now ti).foldl
          (denseStep0 cs.token_1) [] := by
        rw [hsqb]
        exact foldl_volumeSeqStep_token_1 cs _ PairSequence.empty
      constructor
      · intro hv
        rw [h0] at hv
        exact foldl_set_vals (fun _ k => Dict.getD cs.token_0 k 0) (0 ≤ ·)
          (fun _ k => Dict.getD_zero_nonneg hcs.1 k) _ []
          (by intro k' v' hv'; simp [Dict.get] at hv') b v hv
      · intro hv
        rw [h1] at hv
        exact foldl_set_vals (fun _ k => Dict.getD cs.token_1 k 0) (0 ≤ ·)
          (fun _ k => Dict.getD_zero_nonneg hcs.2 k) _ []
          (by intro k' v' hv'; simp [Dict.get] at hv') b v hv
  · intro cs n hcs hn
    exact hsc pool cs hcs b n hn
  · intro sq n hsq hn
    have hmap := calc_swaps_sequence_map_get ops ti now pool
    rw [hsq] at hmap
    cases hg : Dict.get (calc_swaps_change_map ops ti) pool with
    | none =>
      rw [hg] at hmap
      simp at hmap
    | some cs =>
      rw [hg] at hmap
      have hsqb : sq = buildSwapsSeq cs ti now := by simpa using hmap
      have h0 : sq = (pyRange (get_start_time_dict cs now) now ti).foldl
          (denseStep0 cs) [] := by
        rw [hsqb]
        exact foldl_swapsSeqStep_eq cs _ []
      rw [h0] at hn
      exact foldl_set_vals (fun _ k => Dict.getD cs k 0) (0 ≤ ·)
        (fun _ k => Dict.getD_zero_nonneg (hsc pool cs hg) k) _ []
        (by intro k' v' hv'; simp [Dict.get] at hv') b n hn

/-- C10 witness: non-negativity at the concrete swap scenario, pool 1,
bucket 0 of the volume change map. -/
theorem C10_nonnegativity_witness : (0 : Int) ≤ 120 :=
  ((C10_nonnegativity
    [⟨some ⟨1⟩, 0, 100, -50, none⟩, ⟨some ⟨1⟩, 50, -20, 10, none⟩]
    60 120 1 0).1 ⟨[(0, 120)], [(0, 60)]⟩ 120 (by decide)).1 (by decide)

/-! ### Chart rendering -/

theorem itemLE_trans (a b c : Int × ℚ) (hab : itemLE a b) (hbc : itemLE b c) :
    itemLE a c := by
  simp only [itemLE, Bool.or_eq_true, Bool.and_eq_true, decide_eq_true_eq]
    at hab hbc ⊢
  rcases hab with h1 | ⟨h1, h2⟩ <;> rcases hbc with h3 | ⟨h3, h4⟩
  · exact Or.inl (lt_trans h1 h3)
  · exact Or.inl (h3 ▸ h1)
  · exact Or.inl (h1 ▸ h3)
  · exact Or.inr ⟨h1.trans h3, le_trans h2 h4⟩

theorem itemLE_total (a b : Int × ℚ) : itemLE a b || itemLE b a := by
  simp only [itemLE, Bool.or_eq_true, Bool.and_eq_true, decide_eq_true_eq]
  rcases lt_trichotomy a.1 b.1 with h | h | h
  · exact Or.inl (Or.inl h)
  · rcases le_total a.2 b.2 with h2 | h2
    · exact Or.inl (Or.inr ⟨h, h2⟩)
    · exact Or.inr (Or.inr ⟨h.symm, h2⟩)
  · exact Or.inr (Or.inl h)

theorem itemLE_fst_le (a b : Int × ℚ) (h : itemLE a b) : a.1 ≤ b.1 := by
  simp only [itemLE, Bool.or_eq_true, Bool.and_eq_true, decide_eq_true_eq] at h
  rcases h with h | ⟨h, _⟩
  · exact le_of_lt h
  · exact le_of_eq h

/-- C7: `calc_chart` emits one point per bucket key, in ascending bucket
order; the label of each point is the UTC calendar date `YYYY-MM-DD`
(possibly repeated across points) and the value of each point is the sequence
value rounded to `decimals` places when given and passed through unchanged
otherwise; in particular the sequence `{1700000000 ↦ 1.23456}` rendered
with 2 decimals yields `[{time := "2023-11-14", value := 1.23}]`. -/
theorem C7_chart_rendering :
    (∀ (seq : Dict ℚ) (d : Int) (dec : Option Int),
      (calc_chart seq none).map ChartPoint.value
          = (seq.mergeSort itemLE).map Prod.snd
      ∧ (calc_chart seq (some d)).map ChartPoint.value
          = (seq.mergeSort itemLE).map (fun kv => pyRound kv.2 d)
      ∧ (calc_chart seq dec).map ChartPoint.time
          = (seq.mergeSort itemLE).map (fun kv => utc_date_string kv.1)
      ∧ (calc_chart seq dec).length = seq.length
      ∧ List.Sorted (· ≤ ·) ((seq.mergeSort itemLE).map Prod.fst)
      ∧ (seq.mergeSort itemLE).Perm seq)
    ∧ calc_chart [(1700000000, 123456 / 100000)] (some 2)
        = [⟨"2023-11-14", 123 / 100⟩] := by
  constructor
  · intro seq d dec
    refine ⟨?_, ?_, ?_, ?_, ?_, ?_⟩
    · simp [calc_chart, List.map_map, Function.comp]
    · simp [calc_chart, List.map_map, Function.comp]
    · cases dec <;> simp [calc_chart, List.map_map, Function.comp]
    · simp [calc_chart, (List.mergeSort_perm seq itemLE).length_eq]
    · exact List.Pairwise.map Prod.fst itemLE_fst_le
        (List.sorted_mergeSort itemLE_trans itemLE_total seq)
    · exact List.mergeSort_perm seq itemLE
  · have h1 : utc_date_string 1700000000 = "2023-11-14" := by decide
    have h2 : pyRound (123456 / 100000 : ℚ) 2 = 123 / 100 := by
      norm_num [pyRound, roundHalfToEven]
    simp [calc_chart, List.mergeSort_singleton, h1, h2]

end Optus
